import Mathlib

set_option autoImplicit false

/-!
Shallow embedding of the Cashu wallet core, translated from
`src/src/CashuWallet.ts`. The collaborator modules that the wallet imports
(`utils.ts`, `secrets.ts`, `DHKE.ts`, the model types) are not part of the
source tree; definitions translated from them are marked
"Modelled from the spec" and follow the specification text.

Conventions of the embedding:
- JavaScript numbers holding token amounts, counters and counts are `Nat`.
- `randomBytes` and the blinding-factor sampling inside `dhke.blindMessage`
  are modelled by an explicit random stream `rng : Nat -> RngDraw` together
  with a stream position that every operation threads and returns.
- `async` mint round trips are modelled by behavior functions supplied as a
  `MintBehavior`, and every wallet operation additionally returns the list
  of requests it issued, in order.
- Thrown exceptions are modelled with `Except String`.
-/

deriving instance DecidableEq for Except

namespace Cashu

/-- Raw 32-byte values handled by the wallet: either a fresh `randomBytes(32)`
draw, or the deterministic derivation from the BIP-39 seed.
Modelled from the spec: `deriveSecret` lives in `secrets.ts`, which is not
under src/; the spec (section 4.3) derives it by hardened BIP-32 derivation
from the seed, the keyset id and the counter index, so two derivations agree
exactly when seed, keyset id and index agree. The embedding therefore keeps
the derivation symbolic as a free constructor. -/
inductive Bytes32 where
  | random (draw : List Nat)
  | derived (seed : List Nat) (keysetId : String) (index : Nat)
deriving Repr, DecidableEq

/-- Blinding factors: sampled inside `dhke.blindMessage`, or derived from the
seed (spec section 4.3, final path index 1 instead of 0); symbolic as in
`Bytes32`. -/
inductive BFactor where
  | sampled (draw : Nat)
  | derivedR (seed : List Nat) (keysetId : String) (index : Nat)
deriving Repr, DecidableEq

/-- The wallet stores `TextEncoder().encode(bytesToHex(secretBytes))`
(CashuWallet.ts lines 572-574). Hex encoding followed by UTF-8 is injective
on byte strings, so the stored secret is modelled by the bytes it encodes. -/
structure HexSecret where
  bytes : Bytes32
deriving Repr, DecidableEq

/-- Blinded point `B_ = H2C(secret) + r * G`.
Modelled from the spec: `dhke.blindMessage` lives in `DHKE.ts`, which is not
under src/; by spec section 4.2 the blinded point is determined by the secret
bytes and the blinding factor, and the embedding keeps it as that pair. -/
structure BPoint where
  secret : HexSecret
  r : BFactor
deriving Repr, DecidableEq

/-- Serialized blinded message sent to the mint: amount, blinded point and
keyset id. -/
structure SerializedBlindedMessage where
  amount : Nat
  B_ : BPoint
  id : String
deriving Repr, DecidableEq

/-- Unblinded signature value of a proof: either carried verbatim inside a
received token, or `C_ - r * K` computed during proof construction
(spec section 4.2), kept symbolic. -/
inductive CVal where
  | raw (c : String)
  | unblinded (cSig : String) (r : BFactor) (K : String)
deriving Repr, DecidableEq

/-- Secret field of a proof: carried verbatim in a received token, or the
hex-then-UTF-8 encoding of wallet-generated secret bytes. -/
inductive SecretVal where
  | raw (s : String)
  | hexOf (b : Bytes32)
deriving Repr, DecidableEq

/-- A proof (bearer token). -/
structure Proof where
  id : String
  amount : Nat
  secret : SecretVal
  C : CVal
deriving Repr, DecidableEq

/-- Mint keys: keyset id plus the map from denomination to public key. -/
structure MintKeys where
  id : String
  keys : List (Nat × String)
deriving Repr, DecidableEq

/-- Amount preference entry. -/
structure AmountPreference where
  amount : Nat
  count : Nat
deriving Repr, DecidableEq

/-- Wallet state: `_keys`, `_keysetId` and `_seed` of the `CashuWallet`
class (CashuWallet.ts lines 42-44). A wallet constructed without keys has
the empty `MintKeys` record and the empty keyset id string. -/
structure Wallet where
  keys : MintKeys
  keysetId : String
  seed : Option (List Nat)
deriving Repr, DecidableEq

/-- One draw of the random stream: the `randomBytes(32)` result and the
blinding-factor sample used by `dhke.blindMessage` in the same iteration. -/
structure RngDraw where
  secretBytes : List Nat
  rSample : Nat
deriving Repr, DecidableEq

/-- Blind signature returned by the mint. -/
structure BlindSignature where
  id : String
  amount : Nat
  C_ : String
deriving Repr, DecidableEq

/-- Split payload: inputs and outputs of a swap request. -/
structure SplitPayload where
  inputs : List Proof
  outputs : List SerializedBlindedMessage
deriving Repr, DecidableEq

/-- Melt payload (CashuWallet.ts lines 379-383). -/
structure MeltPayload where
  quote : String
  inputs : List Proof
  outputs : List SerializedBlindedMessage
deriving Repr, DecidableEq

/-- Requests a wallet operation can issue to the mint, recorded in order. -/
inductive MintReq where
  | getKeysReq (keysetId : Option String)
  | splitReq (payload : SplitPayload)
  | meltReq (payload : MeltPayload)
  | restoreReq (outputs : List SerializedBlindedMessage)
deriving Repr, DecidableEq

/-- Whether a request is a swap (split) request. -/
def MintReq.isSplitReq : MintReq → Bool
  | .splitReq _ => true
  | _ => false

/-- Melt response with its optional fields (`paid?`, `payment_preimage?`,
`change?`). -/
structure MeltResp where
  paid : Option Bool
  payment_preimage : Option String
  change : Option (List BlindSignature)
deriving Repr, DecidableEq

/-- Restore response: previously signed outputs plus their signatures. -/
structure RestoreResp where
  outputs : List SerializedBlindedMessage
  promises : List BlindSignature
deriving Repr, DecidableEq

/-- The injected mint transport: response behavior for each endpoint the
embedded operations use. `splitResp` takes the mint url because
`CashuMint.split` is called with the token entry url in `receiveTokenEntry`
and with the wallet mint url in `send`. -/
structure MintBehavior where
  mintUrl : String
  keysResp : Option String → MintKeys
  splitResp : String → SplitPayload → Except String (List BlindSignature)
  meltResp : MeltPayload → Except String MeltResp
  restoreResp : List SerializedBlindedMessage → Except String RestoreResp

/-- Result record of `createBlindedMessages`: blinded messages, secrets,
blinding factors and amounts. -/
structure BlindedMessageData where
  blindedMessages : List SerializedBlindedMessage
  secrets : List HexSecret
  rs : List BFactor
  amounts : List Nat
deriving Repr, DecidableEq

/-- A token entry: mint url and proofs. -/
structure TokenEntry where
  mint : String
  proofs : List Proof
deriving Repr, DecidableEq

/-- A token: a list of token entries (field named `token` as in the wire
format). -/
structure Token where
  token : List TokenEntry
deriving Repr, DecidableEq

/-- Return value of `receive` (CashuWallet.ts lines 127-130): note that the
`token` field holds a whole `Token` record, whose own `token` field holds the
entry list. -/
structure ReceiveResponse where
  token : Token
  tokensWithErrors : Option Token
deriving Repr, DecidableEq

/-- Return value of `receiveTokenEntry`. -/
structure ReceiveTokenEntryResponse where
  proofs : List Proof
  proofsWithError : Option (List Proof)
deriving Repr, DecidableEq

/-- Return value of `send`. -/
structure SendResponse where
  returnChange : List Proof
  send : List Proof
deriving Repr, DecidableEq

/-- Melt quote (the fields `meltTokens` reads). -/
structure MeltQuote where
  quote : String
  amount : Nat
  fee_reserve : Nat
deriving Repr, DecidableEq

/-- Return value of `meltTokens`. -/
structure MeltTokensResponse where
  isPaid : Bool
  preimage : Option String
  change : List Proof
deriving Repr, DecidableEq

/-- Sum of the amounts of a list of proofs
(`reduce((total, curr) => total + curr.amount, 0)`). -/
def sumProofs (proofs : List Proof) : Nat := (proofs.map Proof.amount).sum

/-- Total amount described by a preference list
(`reduce((acc, curr) => acc + curr.amount * curr.count, 0)`). -/
def prefSum (p : List AmountPreference) : Nat :=
  (p.map (fun q => q.amount * q.count)).sum

/-- Expansion of a preference list: each amount repeated count times, in
order. -/
def expandPref : List AmountPreference → List Nat
  | [] => []
  | q :: rest => List.replicate q.count q.amount ++ expandPref rest

/-- Whether a number is a positive power of two. -/
def isPow2 (n : Nat) : Bool := n != 0 && (n &&& (n - 1)) == 0

/-- Structural worker for `binDecomp`; the fuel argument only makes the
recursion on the halved amount structural and is irrelevant as soon as it is
at least the amount. -/
def binDecompF : Nat → Nat → List Nat
  | 0, _ => []
  | fuel + 1, a =>
    if a = 0 then []
    else (if a % 2 = 1 then [1] else []) ++ (binDecompF fuel (a / 2)).map (· * 2)

/-- Binary decomposition of an amount: one copy of each set power-of-two bit,
ascending. Modelled from the spec: the default branch of `split_amount`
(section 4.4) with the zero amount yielding the empty list. -/
def binDecomp (a : Nat) : List Nat := binDecompF a a

/-- Modelled from the spec: `splitAmount` (utils.ts, not under src/),
section 4.4: with a preference whose total matches the amount, emit each
preference amount repeated count times, failing when an amount is not a
positive power of two; otherwise emit the default binary decomposition. -/
def splitAmount (amount : Nat) (pref : Option (List AmountPreference)) :
    Except String (List Nat) :=
  match pref with
  | none => .ok (binDecomp amount)
  | some p =>
      if prefSum p = amount then
        if p.all (fun q => isPow2 q.amount) then .ok (expandPref p)
        else .error "InvalidPreference"
      else .ok (binDecomp amount)

/-- Modelled from the spec: `getDefaultAmountPreference` (utils.ts, not under
src/): the default split of the amount, one preference of count one per
emitted denomination (receive, section 4.6: with no preference, default-split
the amount). -/
def getDefaultAmountPreference (amount : Nat) : List AmountPreference :=
  (binDecomp amount).map (fun a => ⟨a, 1⟩)

/-- Modelled from the spec: `deriveSecret` (secrets.ts, not under src/),
section 4.3; symbolic derivation from seed, keyset id and counter index. -/
def deriveSecret (seed : List Nat) (keysetId : String) (index : Nat) : Bytes32 :=
  .derived seed keysetId index

/-- Modelled from the spec: `bytesToNumber` composed with
`deriveBlindingFactor` (secrets.ts, not under src/), section 4.3. -/
def deriveBlindingFactor (seed : List Nat) (keysetId : String) (index : Nat) :
    BFactor :=
  .derivedR seed keysetId index

/-- Modelled from the spec: `dhke.blindMessage` (DHKE.ts, not under src/),
section 4.2: with a supplied blinding factor use it, otherwise sample one;
return the blinded point and the factor used. -/
def blindMessage (secret : HexSecret) (detR : Option BFactor) (draw : Nat) :
    BPoint × BFactor :=
  match detR with
  | some r => (⟨secret, r⟩, r)
  | none => (⟨secret, .sampled draw⟩, .sampled draw)

/-- The message thrown by `createBlindedMessages` when a counter is supplied
without a seed (CashuWallet.ts lines 553-557). -/
def noSeedErrorMsg : String :=
  "Cannot create deterministic messages without seed. Instantiate CashuWallet with a mnemonic, or omit counter param."

/-- The message thrown by `restore` when the wallet has no seed
(CashuWallet.ts lines 256-258). -/
def restoreSeedErrorMsg : String :=
  "CashuWallet must be initialized with mnemonic to use restore"

/-- Loop body of `createBlindedMessages` (CashuWallet.ts lines 561-579):
for each amount, derive or draw the secret bytes and the blinding factor,
encode the secret, blind it, and collect message, secret and factor. The
deterministic branch is taken exactly when the wallet has a seed and a
counter was supplied, and consumes no randomness; the random branch consumes
one draw and advances the stream position. -/
def cbmStep (w : Wallet) (keysetId : String) (counter : Option Nat)
    (rng : Nat → RngDraw) (a i pos : Nat) :
    SerializedBlindedMessage × HexSecret × BFactor × Nat :=
  match w.seed, counter with
  | some s, some c =>
      let secretBytes := deriveSecret s keysetId (c + i)
      let deterministicR := deriveBlindingFactor s keysetId (c + i)
      let secret : HexSecret := ⟨secretBytes⟩
      let br := blindMessage secret (some deterministicR) 0
      (⟨a, br.1, keysetId⟩, secret, br.2, pos)
  | _, _ =>
      let d := rng pos
      let secretBytes := Bytes32.random d.secretBytes
      let secret : HexSecret := ⟨secretBytes⟩
      let br := blindMessage secret none d.rSample
      (⟨a, br.1, keysetId⟩, secret, br.2, pos + 1)

def cbmLoop (w : Wallet) (keysetId : String) (counter : Option Nat)
    (rng : Nat → RngDraw) :
    List Nat → Nat → Nat →
      List SerializedBlindedMessage × List HexSecret × List BFactor × Nat
  | [], _, pos => ([], [], [], pos)
  | a :: rest, i, pos =>
    let st := cbmStep w keysetId counter rng a i pos
    let rest' := cbmLoop w keysetId counter rng rest (i + 1) st.2.2.2
    (st.1 :: rest'.1, st.2.1 :: rest'.2.1, st.2.2.1 :: rest'.2.2.1, rest'.2.2.2)

/-- `createBlindedMessages` (CashuWallet.ts lines 547-581): fails when a
counter is supplied without a seed, otherwise produces one blinded message,
secret and blinding factor per amount. -/
def createBlindedMessages (w : Wallet) (amounts : List Nat) (keysetId : String)
    (counter : Option Nat) (rng : Nat → RngDraw) (pos : Nat) :
    Except String (BlindedMessageData × Nat) :=
  if counter.isSome && w.seed.isNone then .error noSeedErrorMsg
  else
    let r := cbmLoop w keysetId counter rng amounts 0 pos
    .ok (⟨r.1, r.2.1, r.2.2.1, amounts⟩, r.2.2.2)

/-- `createRandomBlindedMessages` (CashuWallet.ts lines 530-538): split the
amount, then create the blinded messages for the resulting denominations. -/
def createRandomBlindedMessages (w : Wallet) (amount : Nat) (keyset : MintKeys)
    (amountPreference : Option (List AmountPreference)) (counter : Option Nat)
    (rng : Nat → RngDraw) (pos : Nat) :
    Except String (BlindedMessageData × Nat) :=
  match splitAmount amount amountPreference with
  | .error e => .error e
  | .ok amounts => createBlindedMessages w amounts keyset.id counter rng pos

/-- `splitReceive` (CashuWallet.ts lines 514-521): amounts to keep and to
send. -/
def splitReceive (amount amountAvailable : Nat) : Nat × Nat :=
  (amountAvailable - amount, amount)

/-- The counter advance between the keep group and the send group of
`createSplitPayload` (CashuWallet.ts lines 470-472): the truthiness test
`this._seed && counter` skips the advance when the supplied counter is
zero. -/
def advanceCounter (w : Wallet) (counter : Option Nat) (k : Nat) : Option Nat :=
  match w.seed, counter with
  | some _, some c => if c ≠ 0 then some (c + k) else some c
  | _, _ => counter

/-- `createSplitPayload` (CashuWallet.ts lines 453-496): one keep group for
the change amount, then one send group. -/
def createSplitPayload (w : Wallet) (amount : Nat) (proofsToSend : List Proof)
    (keyset : MintKeys) (preference : Option (List AmountPreference))
    (counter : Option Nat) (rng : Nat → RngDraw) (pos : Nat) :
    Except String ((SplitPayload × BlindedMessageData) × Nat) :=
  let totalAmount := sumProofs proofsToSend
  match createRandomBlindedMessages w (totalAmount - amount) keyset none counter rng pos with
  | .error e => .error e
  | .ok (keepData, pos1) =>
    let counter2 := advanceCounter w counter keepData.secrets.length
    match createRandomBlindedMessages w amount keyset preference counter2 rng pos1 with
    | .error e => .error e
    | .ok (sendData, pos2) =>
      let blindedMessages : BlindedMessageData :=
        ⟨keepData.blindedMessages ++ sendData.blindedMessages,
         keepData.secrets ++ sendData.secrets,
         keepData.rs ++ sendData.rs,
         keepData.amounts ++ sendData.amounts⟩
      .ok ((⟨proofsToSend, blindedMessages.blindedMessages⟩, blindedMessages), pos2)

/-- Modelled from the spec: `dhke.constructProofs` (DHKE.ts, not under src/),
section 4.2: pair the signatures element-wise with the retained blinding
factors and secrets, look the mint key up by the signature amount (failing
when the denomination is unknown), and emit proofs carrying the signature
amount and the keyset id; running out of retained factors or secrets while
signatures remain is a length mismatch. -/
def constructProofsGo (keys : MintKeys) :
    List BlindSignature → List BFactor → List HexSecret → Except String (List Proof)
  | [], _, _ => .ok []
  | sig :: sigs, r :: rs, sec :: secs =>
    match keys.keys.lookup sig.amount with
    | none => .error "UnknownDenomination"
    | some K =>
      match constructProofsGo keys sigs rs secs with
      | .error e => .error e
      | .ok ps => .ok (⟨keys.id, sig.amount, .hexOf sec.bytes, .unblinded sig.C_ r K⟩ :: ps)
  | _ :: _, _, _ => .error "length mismatch"

/-- Modelled from the spec: `dhke.constructProofs` with the argument order of
the call sites. -/
def constructProofs (signatures : List BlindSignature) (rs : List BFactor)
    (secrets : List HexSecret) (keys : MintKeys) : Except String (List Proof) :=
  constructProofsGo keys signatures rs secrets

/-- `initKeys` (CashuWallet.ts lines 279-286): fetch and cache the mint keys
when no keyset id or no keys are cached; returns the requests issued, the
updated wallet and the keys to use. -/
def initKeys (w : Wallet) (mb : MintBehavior) : List MintReq × Wallet × MintKeys :=
  if w.keysetId = "" || w.keys.keys.isEmpty then
    let k := mb.keysResp none
    ([.getKeysReq none], ⟨k, k.id, w.seed⟩, k)
  else ([], w, w.keys)

/-- `getKeys` (CashuWallet.ts lines 294-310) for the in-wallet mint url:
initialize the cache, then use the cached keys unless the first signature
carries a different nonempty keyset id, in which case fetch that keyset
without updating the cache. -/
def getKeysFor (w : Wallet) (mb : MintBehavior) (arr : List BlindSignature) :
    List MintReq × Wallet × MintKeys :=
  let r := initKeys w mb
  match arr with
  | [] => r
  | a :: _ =>
    if a.id = "" then r
    else if r.2.1.keysetId = a.id then r
    else (r.1 ++ [.getKeysReq (some a.id)], r.2.1, mb.keysResp (some a.id))

/-- Greedy proof selection loop of `send` (CashuWallet.ts lines 198-208):
returns the proofs to send, the proofs to keep and the final available
amount. -/
def greedyGo (amount : Nat) : List Proof → Nat → List Proof × List Proof × Nat
  | [], avail => ([], [], avail)
  | p :: rest, avail =>
    if amount ≤ avail then
      let r := greedyGo amount rest avail
      (r.1, p :: r.2.1, r.2.2)
    else
      let r := greedyGo amount rest (avail + p.amount)
      (p :: r.1, r.2.1, r.2.2)

/-- Post-swap splitting loop of `send` (CashuWallet.ts lines 230-240):
collect returned proofs into the keep pile while the keep counter is below
the keep amount. -/
def splitByKeep (amountKeep : Nat) : List Proof → Nat → List Proof × List Proof
  | [], _ => ([], [])
  | p :: rest, acc =>
    if acc < amountKeep then
      let r := splitByKeep amountKeep rest (acc + p.amount)
      (p :: r.1, r.2)
    else
      let r := splitByKeep amountKeep rest acc
      (r.1, p :: r.2)

/-- The preference override of `send` (CashuWallet.ts lines 194-196). -/
def overrideAmount (amount : Nat) (preference : Option (List AmountPreference)) :
    Nat :=
  match preference with
  | some p => prefSum p
  | none => amount

/-- `send` (CashuWallet.ts lines 188-247). Returns the issued mint requests
and either an error or the updated wallet with the send response. -/
def send (w : Wallet) (mb : MintBehavior) (amount : Nat) (proofs : List Proof)
    (preference : Option (List AmountPreference)) (counter : Option Nat)
    (rng : Nat → RngDraw) (pos : Nat) :
    List MintReq × Except String (Wallet × SendResponse) :=
  let amount := overrideAmount amount preference
  let ik := initKeys w mb
  let tr0 := ik.1
  let w1 := ik.2.1
  let keyset := ik.2.2
  let g := greedyGo amount proofs 0
  let proofsToSend := g.1
  let proofsToKeep := g.2.1
  let amountAvailable := g.2.2
  if amountAvailable < amount then (tr0, .error "Not enough funds available")
  else if amount < amountAvailable ∨ preference.isSome = true then
    match createSplitPayload w1 amount proofsToSend keyset preference counter rng pos with
    | .error e => (tr0, .error e)
    | .ok ((payload, blindedMessages), _) =>
      match mb.splitResp mb.mintUrl payload with
      | .error e => (tr0 ++ [.splitReq payload], .error e)
      | .ok signatures =>
        match constructProofs signatures blindedMessages.rs blindedMessages.secrets keyset with
        | .error e => (tr0 ++ [.splitReq payload], .error e)
        | .ok newProofs =>
          let amountKeep := (splitReceive amount amountAvailable).1
          let sp := splitByKeep amountKeep newProofs 0
          (tr0 ++ [.splitReq payload],
            .ok (w1, ⟨sp.1 ++ proofsToKeep, sp.2⟩))
  else (tr0, .ok (w1, ⟨proofsToKeep, proofsToSend⟩))

/-- The preference defaulting of `receiveTokenEntry` (CashuWallet.ts lines
149-151): `if (!preference) preference = getDefaultAmountPreference(amount)`. -/
def resolvePreference (preference : Option (List AmountPreference))
    (amount : Nat) : List AmountPreference :=
  match preference with
  | none => getDefaultAmountPreference amount
  | some p => p

/-- `receiveTokenEntry` (CashuWallet.ts lines 140-176): swap the proofs of a
single entry; any failure is caught and reported through the
`proofsWithError` field. Returns requests, updated wallet, response and
stream position. -/
def receiveTokenEntry (w : Wallet) (mb : MintBehavior) (tokenEntry : TokenEntry)
    (preference : Option (List AmountPreference)) (counter : Option Nat)
    (rng : Nat → RngDraw) (pos : Nat) :
    List MintReq × Wallet × ReceiveTokenEntryResponse × Nat :=
  let amount := sumProofs tokenEntry.proofs
  let pref := resolvePreference preference amount
  let ik := initKeys w mb
  let tr1 := ik.1
  let w1 := ik.2.1
  let keyset := ik.2.2
  match createSplitPayload w1 amount tokenEntry.proofs keyset (some pref) counter rng pos with
  | .error _ => (tr1, w1, ⟨[], some tokenEntry.proofs⟩, pos)
  | .ok ((payload, blindedMessages), pos2) =>
    match mb.splitResp tokenEntry.mint payload with
    | .error _ => (tr1 ++ [.splitReq payload], w1, ⟨[], some tokenEntry.proofs⟩, pos2)
    | .ok signatures =>
      match constructProofs signatures blindedMessages.rs blindedMessages.secrets keyset with
      | .error _ => (tr1 ++ [.splitReq payload], w1, ⟨[], some tokenEntry.proofs⟩, pos2)
      | .ok newProofs => (tr1 ++ [.splitReq payload], w1, ⟨newProofs, none⟩, pos2)

/-- Entry loop of `receive` (CashuWallet.ts lines 107-126): skip entries
without proofs; collect successful entries and entries with errors. -/
def receiveGo (mb : MintBehavior) (preference : Option (List AmountPreference))
    (counter : Option Nat) (rng : Nat → RngDraw) :
    List TokenEntry → Wallet → Nat →
      List MintReq × Wallet × List TokenEntry × List TokenEntry × Nat
  | [], w, pos => ([], w, [], [], pos)
  | e :: rest, w, pos =>
    if e.proofs.isEmpty then receiveGo mb preference counter rng rest w pos
    else
      let step := receiveTokenEntry w mb e preference counter rng pos
      let r := receiveGo mb preference counter rng rest step.2.1 step.2.2.2
      match step.2.2.1.proofsWithError with
      | some _ => (step.1 ++ r.1, r.2.1, r.2.2.1, e :: r.2.2.2.1, r.2.2.2.2)
      | none =>
        (step.1 ++ r.1, r.2.1, ⟨e.mint, step.2.2.1.proofs⟩ :: r.2.2.1,
          r.2.2.2.1, r.2.2.2.2)

/-- `receive` (CashuWallet.ts lines 94-131) on an already decoded token:
process each entry, never propagating per-entry errors; the `token` field of
the result holds a nested `Token` record. -/
def receive (w : Wallet) (mb : MintBehavior) (token : Token)
    (preference : Option (List AmountPreference)) (counter : Option Nat)
    (rng : Nat → RngDraw) (pos : Nat) :
    List MintReq × Wallet × ReceiveResponse × Nat :=
  let r := receiveGo mb preference counter rng token.token w pos
  (r.1, r.2.1,
    ⟨⟨r.2.2.1⟩, if r.2.2.2.1.isEmpty then none else some ⟨r.2.2.2.1⟩⟩,
    r.2.2.2.2)

/-- The entries recorded as failed by a receive response. -/
def errEntries (res : ReceiveResponse) : List TokenEntry :=
  match res.tokensWithErrors with
  | none => []
  | some t => t.token

/-- Structural worker for `ceilLog2`; fuel-irrelevant once the fuel is at
least the argument. -/
def ceilLog2F : Nat → Nat → Nat
  | 0, _ => 0
  | fuel + 1, n => if n ≤ 1 then 0 else ceilLog2F fuel ((n + 1) / 2) + 1

/-- The ceiling base-two logarithm on positive naturals (zero on zero and
one); agrees with `Nat.clog 2` (proved below). -/
def ceilLog2 (n : Nat) : Nat := ceilLog2F n n

/-- Blank output count of `createBlankOutputs` (CashuWallet.ts lines
595-599): `Math.ceil(Math.log2(feeReserve)) || 1`, clamped below at zero.
The real logarithm of the JavaScript code is modelled exactly by the
integer ceiling logarithm: for fee reserve zero the JavaScript value is
negative infinity (truthy), so the clamp yields zero; for fee reserve one
the ceiling is zero (falsy) and the `|| 1` yields one. -/
def blankOutputCount (feeReserve : Nat) : Nat :=
  if feeReserve = 0 then 0
  else if ceilLog2 feeReserve = 0 then 1
  else ceilLog2 feeReserve

/-- `createBlankOutputs` (CashuWallet.ts lines 590-603). -/
def createBlankOutputs (w : Wallet) (feeReserve : Nat) (keysetId : String)
    (counter : Option Nat) (rng : Nat → RngDraw) (pos : Nat) :
    Except String (BlindedMessageData × Nat) :=
  let count := blankOutputCount feeReserve
  let amounts := List.replicate count 1
  createBlindedMessages w amounts keysetId counter rng pos

/-- `meltTokens` (CashuWallet.ts lines 368-398): build blank outputs with
the supplied or cached keyset id (no key initialization first), post the
melt payload, then default the `paid` flag to false and unblind the change
against the retained blank-output secrets and factors, or return no change
when the mint omitted the field. -/
def meltTokens (w : Wallet) (mb : MintBehavior) (meltQuote : MeltQuote)
    (proofsToSend : List Proof) (keysetId : Option String) (counter : Option Nat)
    (rng : Nat → RngDraw) (pos : Nat) :
    List MintReq × Except String (Wallet × MeltTokensResponse) :=
  match createBlankOutputs w meltQuote.fee_reserve (keysetId.getD w.keysetId) counter rng pos with
  | .error e => ([], .error e)
  | .ok (bm, _) =>
    let meltPayload : MeltPayload := ⟨meltQuote.quote, proofsToSend, bm.blindedMessages⟩
    match mb.meltResp meltPayload with
    | .error e => ([.meltReq meltPayload], .error e)
    | .ok resp =>
      match resp.change with
      | none =>
        ([.meltReq meltPayload],
          .ok (w, ⟨resp.paid.getD false, resp.payment_preimage, []⟩))
      | some sigs =>
        let gk := getKeysFor w mb sigs
        match constructProofs sigs bm.rs bm.secrets gk.2.2 with
        | .error e => (.meltReq meltPayload :: gk.1, .error e)
        | .ok change =>
          (.meltReq meltPayload :: gk.1,
            .ok (gk.2.1, ⟨resp.paid.getD false, resp.payment_preimage, change⟩))

/-- Filtering of `restore` (CashuWallet.ts lines 266-269): keep the elements
whose parallel blinded message reappears among the returned outputs. -/
def filterByReturned {α : Type} (returned : List BPoint)
    (bms : List SerializedBlindedMessage) (xs : List α) : List α :=
  ((xs.zip bms).filter (fun p => returned.contains p.2.B_)).map Prod.fst

/-- `restore` (CashuWallet.ts lines 255-274): requires a seed, plans `count`
zero-amount outputs starting at `start`, posts them, filters the retained
factors and secrets to the outputs the mint recognized and unblinds the
returned signatures. -/
def restore (w : Wallet) (mb : MintBehavior) (start count : Nat)
    (keysetId : String) (rng : Nat → RngDraw) (pos : Nat) :
    List MintReq × Except String (List Proof) :=
  match w.seed with
  | none => ([], .error restoreSeedErrorMsg)
  | some _ =>
    let amounts := List.replicate count 0
    match createBlindedMessages w amounts keysetId (some start) rng pos with
    | .error e => ([], .error e)
    | .ok (bm, _) =>
      match mb.restoreResp bm.blindedMessages with
      | .error e => ([.restoreReq bm.blindedMessages], .error e)
      | .ok resp =>
        let returnedB := resp.outputs.map SerializedBlindedMessage.B_
        let validRs := filterByReturned returnedB bm.blindedMessages bm.rs
        let validSecrets := filterByReturned returnedB bm.blindedMessages bm.secrets
        let gk := getKeysFor w mb resp.promises
        match constructProofs resp.promises validRs validSecrets gk.2.2 with
        | .error e => (.restoreReq bm.blindedMessages :: gk.1, .error e)
        | .ok ps => (.restoreReq bm.blindedMessages :: gk.1, .ok ps)

/-- The value of the deterministic branch of the blinded-message loop:
messages, secrets and blinding factors derived at consecutive indices from
`start`. Used to state determinism and counter-contiguity results. -/
def detData (s : List Nat) (keysetId : String) (start : Nat) :
    List Nat → List SerializedBlindedMessage × List HexSecret × List BFactor
  | [] => ([], [], [])
  | a :: rest =>
    let sec : HexSecret := ⟨.derived s keysetId start⟩
    let r : BFactor := .derivedR s keysetId start
    let d := detData s keysetId (start + 1) rest
    (⟨a, ⟨sec, r⟩, keysetId⟩ :: d.1, sec :: d.2.1, r :: d.2.2)

/-- Sample keyset used by the concrete evaluations. -/
def ks1 : MintKeys := ⟨"ks1", [(1, "pk1"), (2, "pk2"), (4, "pk4")]⟩

/-- Sample random stream used by the concrete evaluations. -/
def rng0 : Nat → RngDraw := fun n => ⟨[n], n⟩

/-- Sample wallet with cached keys and no seed. -/
def wNoSeed : Wallet := ⟨ks1, "ks1", none⟩

/-- Sample wallet with cached keys and a seed. -/
def wSeed : Wallet := ⟨ks1, "ks1", some [7]⟩

/-- Honest mint behavior for the concrete evaluations: key requests return
the sample keyset, and every split request is answered with one signature
per requested output, carrying the requested amount, except that requests
sent to the url "bad" fail. -/
def mbHonest : MintBehavior :=
  ⟨"mint", fun _ => ks1,
   fun url payload =>
     if url = "bad" then .error "mint error"
     else .ok (payload.outputs.map (fun o => ⟨o.id, o.amount, "sig"⟩)),
   fun _ => .error "unused",
   fun _ => .error "unused"⟩

/-- Sample proof of amount one held in a received token. -/
def pIn1 : Proof := ⟨"ks1", 1, .raw "s1", .raw "c1"⟩

/-- Sample proof of amount two held in a received token. -/
def pIn2 : Proof := ⟨"ks1", 2, .raw "s2", .raw "c2"⟩

/-- A second sample random stream, different from `rng0` everywhere. -/
def rngB : Nat → RngDraw := fun n => ⟨[n, n], n + 13⟩

/-- Sample one-entry token. -/
def tokRecv : Token := ⟨[⟨"good", [pIn1]⟩]⟩

/-! Arithmetic facts about the amount decomposition and the ceiling
logarithm. -/

theorem binDecompF_congr : ∀ (f1 f2 a : Nat), a ≤ f1 → a ≤ f2 →
    binDecompF f1 a = binDecompF f2 a := by
  intro f1
  induction f1 with
  | zero =>
    intro f2 a h1 _
    have ha : a = 0 := Nat.le_zero.mp h1
    cases f2 <;> simp [binDecompF, ha]
  | succ g ih =>
    intro f2 a h1 h2
    cases f2 with
    | zero =>
      have ha : a = 0 := Nat.le_zero.mp h2
      simp [binDecompF, ha]
    | succ g2 =>
      by_cases ha : a = 0
      · simp [binDecompF, ha]
      · have hlt : a / 2 < a := Nat.div_lt_self (Nat.pos_of_ne_zero ha) one_lt_two
        simp only [binDecompF, ha, if_false]
        rw [ih g2 (a / 2) (by omega) (by omega)]

theorem binDecomp_eq (a : Nat) : binDecomp a =
    if a = 0 then []
    else (if a % 2 = 1 then [1] else []) ++ (binDecomp (a / 2)).map (· * 2) := by
  unfold binDecomp
  cases a with
  | zero => simp [binDecompF]
  | succ n =>
    have h : (n + 1) / 2 ≤ n := by omega
    simp only [binDecompF, Nat.succ_ne_zero, if_false]
    rw [binDecompF_congr n ((n + 1) / 2) ((n + 1) / 2) h le_rfl]

theorem sum_map_two (l : List Nat) : (l.map (· * 2)).sum = 2 * l.sum := by
  induction l with
  | nil => simp
  | cons x xs ih => simp [ih]; ring

theorem binDecomp_sum (a : Nat) : (binDecomp a).sum = a := by
  induction a using Nat.strong_induction_on with
  | _ a ih =>
    rw [binDecomp_eq]
    by_cases h : a = 0
    · simp [h]
    · have hlt : a / 2 < a := Nat.div_lt_self (Nat.pos_of_ne_zero h) one_lt_two
      have hs := ih (a / 2) hlt
      simp only [h, if_false, List.sum_append, sum_map_two, hs]
      rcases Nat.mod_two_eq_zero_or_one a with h1 | h1 <;> simp [h1] <;> omega

theorem binDecomp_pos (a : Nat) : ∀ x ∈ binDecomp a, 0 < x := by
  induction a using Nat.strong_induction_on with
  | _ a ih =>
    rw [binDecomp_eq]
    by_cases h : a = 0
    · simp [h]
    · have hlt : a / 2 < a := Nat.div_lt_self (Nat.pos_of_ne_zero h) one_lt_two
      intro x hx
      simp only [h, if_false, List.mem_append, List.mem_map] at hx
      rcases hx with hx | ⟨y, hy, rfl⟩
      · rcases Nat.mod_two_eq_zero_or_one a with h1 | h1 <;> simp [h1] at hx
        omega
      · have := ih (a / 2) hlt y hy
        omega

theorem expandPref_sum (p : List AmountPreference) :
    (expandPref p).sum = prefSum p := by
  induction p with
  | nil => simp [expandPref, prefSum]
  | cons q rest ih =>
    simp only [expandPref, prefSum, List.map_cons, List.sum_cons, List.sum_append,
      List.sum_replicate, smul_eq_mul]
    simp only [prefSum] at ih
    rw [ih]
    ring

@[simp] theorem splitAmount_none (a : Nat) :
    splitAmount a none = .ok (binDecomp a) := rfl

theorem splitAmount_sum (amount : Nat) (pref : Option (List AmountPreference))
    (l : List Nat) (h : splitAmount amount pref = .ok l) : l.sum = amount := by
  unfold splitAmount at h
  match pref with
  | none =>
    simp only at h
    cases h
    exact binDecomp_sum amount
  | some p =>
    simp only at h
    by_cases hp : prefSum p = amount
    · simp only [hp, if_true] at h
      by_cases hall : p.all (fun q => isPow2 q.amount)
      · simp only [hall, if_true] at h
        cases h
        rw [expandPref_sum, hp]
      · simp [hall] at h
    · simp only [hp, if_false] at h
      cases h
      exact binDecomp_sum amount

theorem ceilLog2F_congr : ∀ (f1 f2 n : Nat), n ≤ f1 → n ≤ f2 →
    ceilLog2F f1 n = ceilLog2F f2 n := by
  intro f1
  induction f1 with
  | zero =>
    intro f2 n h1 _
    have hn : n = 0 := Nat.le_zero.mp h1
    cases f2 <;> simp [ceilLog2F, hn]
  | succ g ih =>
    intro f2 n h1 h2
    cases f2 with
    | zero =>
      have hn : n = 0 := Nat.le_zero.mp h2
      simp [ceilLog2F, hn]
    | succ g2 =>
      by_cases hn : n ≤ 1
      · simp [ceilLog2F, hn]
      · simp only [ceilLog2F, hn, if_false]
        rw [ih g2 ((n + 1) / 2) (by omega) (by omega)]

theorem ceilLog2_eq_clog (n : Nat) : ceilLog2 n = Nat.clog 2 n := by
  induction n using Nat.strong_induction_on with
  | _ n ih =>
    by_cases hn : n ≤ 1
    · interval_cases n <;> simp [ceilLog2, ceilLog2F, Nat.clog]
    · have h2 : 2 ≤ n := by omega
      obtain ⟨m, rfl⟩ : ∃ m, n = m + 1 := ⟨n - 1, by omega⟩
      have hstep : ceilLog2 (m + 1) = ceilLog2F m ((m + 2) / 2) + 1 := by
        simp only [ceilLog2, ceilLog2F, hn, if_false]
      rw [hstep, ceilLog2F_congr m ((m + 2) / 2) ((m + 2) / 2) (by omega) le_rfl]
      have hrec := ih ((m + 2) / 2) (by omega)
      rw [ceilLog2] at hrec
      rw [hrec]
      rw [Nat.clog_of_two_le one_lt_two h2]
      have harg : m + 1 + 2 - 1 = m + 2 := by omega
      rw [harg]

/-! Structure of the blinded-message loop and of proof construction. -/

@[simp] theorem sumProofs_nil : sumProofs [] = 0 := rfl

@[simp] theorem sumProofs_cons (p : Proof) (l : List Proof) :
    sumProofs (p :: l) = p.amount + sumProofs l := by
  simp [sumProofs]

@[simp] theorem sumProofs_append (l1 l2 : List Proof) :
    sumProofs (l1 ++ l2) = sumProofs l1 + sumProofs l2 := by
  simp [sumProofs]

theorem cbmLoop_det (w : Wallet) (s : List Nat) (keysetId : String) (c : Nat)
    (rng : Nat → RngDraw) (hw : w.seed = some s) :
    ∀ (amounts : List Nat) (i pos : Nat),
      cbmLoop w keysetId (some c) rng amounts i pos =
        ((detData s keysetId (c + i) amounts).1,
         (detData s keysetId (c + i) amounts).2.1,
         (detData s keysetId (c + i) amounts).2.2, pos) := by
  intro amounts
  induction amounts with
  | nil => intro i pos; simp [cbmLoop, detData]
  | cons a rest ih =>
    intro i pos
    simp only [cbmLoop, cbmStep, hw, detData]
    rw [ih (i + 1) pos]
    have harg : c + i + 1 = c + (i + 1) := by omega
    simp [blindMessage, deriveSecret, deriveBlindingFactor, harg]

theorem cbmStep_parts (w : Wallet) (keysetId : String) (counter : Option Nat)
    (rng : Nat → RngDraw) (a i pos : Nat) :
    (cbmStep w keysetId counter rng a i pos).1.amount = a ∧
    (cbmStep w keysetId counter rng a i pos).1.id = keysetId := by
  rcases hs : w.seed with _ | s <;> rcases hc : counter with _ | c <;>
    simp [cbmStep, hs, hc, blindMessage]

theorem cbmLoop_maps (w : Wallet) (keysetId : String) (counter : Option Nat)
    (rng : Nat → RngDraw) :
    ∀ (amounts : List Nat) (i pos : Nat),
      (cbmLoop w keysetId counter rng amounts i pos).1.map
          SerializedBlindedMessage.amount = amounts ∧
      (cbmLoop w keysetId counter rng amounts i pos).1.map
          SerializedBlindedMessage.id = List.replicate amounts.length keysetId ∧
      (cbmLoop w keysetId counter rng amounts i pos).2.1.length = amounts.length ∧
      (cbmLoop w keysetId counter rng amounts i pos).2.2.1.length = amounts.length := by
  intro amounts
  induction amounts with
  | nil => intro i pos; simp [cbmLoop]
  | cons a rest ih =>
    intro i pos
    simp only [cbmLoop, List.map_cons, List.length_cons, List.replicate_succ]
    have hst := cbmStep_parts w keysetId counter rng a i pos
    have hih := ih (i + 1) (cbmStep w keysetId counter rng a i pos).2.2.2
    simp [hst.1, hst.2, hih.1, hih.2.1, hih.2.2.1, hih.2.2.2]

theorem createBlindedMessages_det (w : Wallet) (s : List Nat)
    (amounts : List Nat) (keysetId : String) (c : Nat) (rng : Nat → RngDraw)
    (pos : Nat) (hw : w.seed = some s) :
    createBlindedMessages w amounts keysetId (some c) rng pos =
      .ok (⟨(detData s keysetId c amounts).1, (detData s keysetId c amounts).2.1,
            (detData s keysetId c amounts).2.2, amounts⟩, pos) := by
  unfold createBlindedMessages
  rw [cbmLoop_det w s keysetId c rng hw amounts 0 pos]
  simp [hw]

theorem createBlindedMessages_parts (w : Wallet) (amounts : List Nat)
    (keysetId : String) (counter : Option Nat) (rng : Nat → RngDraw) (pos : Nat)
    (d : BlindedMessageData) (posF : Nat)
    (h : createBlindedMessages w amounts keysetId counter rng pos = .ok (d, posF)) :
    d.blindedMessages.map SerializedBlindedMessage.amount = amounts ∧
    d.secrets.length = amounts.length ∧ d.rs.length = amounts.length ∧
    d.amounts = amounts := by
  unfold createBlindedMessages at h
  by_cases hc : counter.isSome && w.seed.isNone
  · rw [if_pos hc] at h; cases h
  · rw [if_neg hc] at h
    have hm := cbmLoop_maps w keysetId counter rng amounts 0 pos
    cases h
    exact ⟨hm.1, hm.2.2.1, hm.2.2.2, rfl⟩

theorem greedyGo_spec (amount : Nat) :
    ∀ (proofs : List Proof) (acc : Nat),
      (greedyGo amount proofs acc).2.2 =
        acc + sumProofs (greedyGo amount proofs acc).1 ∧
      sumProofs (greedyGo amount proofs acc).1 +
        sumProofs (greedyGo amount proofs acc).2.1 = sumProofs proofs := by
  intro proofs
  induction proofs with
  | nil => intro acc; simp [greedyGo]
  | cons p rest ih =>
    intro acc
    by_cases h : amount ≤ acc
    · simp only [greedyGo, if_pos h, sumProofs_cons]
      have := ih acc
      omega
    · simp only [greedyGo, if_neg h, sumProofs_cons]
      have := ih (acc + p.amount)
      omega

theorem splitByKeep_ge (amountKeep : Nat) :
    ∀ (B : List Proof) (acc : Nat), amountKeep ≤ acc →
      splitByKeep amountKeep B acc = ([], B) := by
  intro B
  induction B with
  | nil => intro acc _; simp [splitByKeep]
  | cons p rest ih =>
    intro acc h
    have hlt : ¬acc < amountKeep := by omega
    simp [splitByKeep, hlt, ih acc h]

theorem splitByKeep_exact (amountKeep : Nat) :
    ∀ (A B : List Proof) (acc : Nat), (∀ p ∈ A, 0 < p.amount) →
      acc + sumProofs A = amountKeep →
      splitByKeep amountKeep (A ++ B) acc = (A, B) := by
  intro A
  induction A with
  | nil =>
    intro B acc _ h
    simp only [sumProofs_nil] at h
    simp [splitByKeep_ge amountKeep B acc (by omega)]
  | cons p A' ih =>
    intro B acc hpos h
    have hp : 0 < p.amount := hpos p (by simp)
    simp only [sumProofs_cons] at h
    have hlt : acc < amountKeep := by omega
    simp only [List.cons_append, splitByKeep, if_pos hlt, List.append_eq]
    rw [ih B (acc + p.amount) (fun q hq => hpos q (by simp [hq])) (by omega)]

theorem constructProofsGo_amounts (keys : MintKeys) :
    ∀ (sigs : List BlindSignature) (rs : List BFactor) (secs : List HexSecret)
      (ps : List Proof), constructProofsGo keys sigs rs secs = .ok ps →
      ps.map Proof.amount = sigs.map BlindSignature.amount := by
  intro sigs
  induction sigs with
  | nil =>
    intro rs secs ps h
    simp only [constructProofsGo] at h
    cases h
    simp
  | cons sig sigs ih =>
    intro rs secs ps h
    cases rs with
    | nil => simp [constructProofsGo] at h
    | cons r rs' =>
      cases secs with
      | nil => simp [constructProofsGo] at h
      | cons sec secs' =>
        simp only [constructProofsGo] at h
        rcases hk : keys.keys.lookup sig.amount with _ | K <;> rw [hk] at h
        · cases h
        · rcases hrec : constructProofsGo keys sigs rs' secs' with e | ps' <;>
            rw [hrec] at h
          · cases h
          · cases h
            simp [ih rs' secs' ps' hrec]

theorem createSplitPayload_parts (w : Wallet) (amount : Nat)
    (proofsToSend : List Proof) (keyset : MintKeys)
    (preference : Option (List AmountPreference)) (counter : Option Nat)
    (rng : Nat → RngDraw) (pos : Nat) (payload : SplitPayload)
    (bm : BlindedMessageData) (posF : Nat)
    (h : createSplitPayload w amount proofsToSend keyset preference counter rng pos
          = .ok ((payload, bm), posF)) :
    ∃ sendAmounts,
      splitAmount amount preference = .ok sendAmounts ∧
      payload.inputs = proofsToSend ∧
      payload.outputs = bm.blindedMessages ∧
      bm.blindedMessages.map SerializedBlindedMessage.amount =
        binDecomp (sumProofs proofsToSend - amount) ++ sendAmounts ∧
      bm.rs.length =
        (binDecomp (sumProofs proofsToSend - amount)).length + sendAmounts.length ∧
      bm.secrets.length =
        (binDecomp (sumProofs proofsToSend - amount)).length + sendAmounts.length := by
  unfold createSplitPayload createRandomBlindedMessages at h
  simp only [splitAmount_none] at h
  rcases hkeep : createBlindedMessages w (binDecomp (sumProofs proofsToSend - amount))
      keyset.id counter rng pos with e | kp
  · simp only [hkeep] at h
    exact Except.noConfusion h
  · simp only [hkeep] at h
    obtain ⟨keepData, pos1⟩ := kp
    rcases hsa : splitAmount amount preference with e | sendAmounts
    · simp only [hsa] at h
      exact Except.noConfusion h
    · simp only [hsa] at h
      rcases hsend : createBlindedMessages w sendAmounts keyset.id
          (advanceCounter w counter keepData.secrets.length) rng pos1 with e | sp
      · simp only [hsend] at h
        exact Except.noConfusion h
      · simp only [hsend] at h
        obtain ⟨sendData, pos2⟩ := sp
        have hk := createBlindedMessages_parts w _ _ _ _ _ _ _ hkeep
        have hs := createBlindedMessages_parts w _ _ _ _ _ _ _ hsend
        simp only [Except.ok.injEq, Prod.mk.injEq] at h
        obtain ⟨⟨hp, hb⟩, hposF⟩ := h
        subst hp
        subst hb
        refine ⟨sendAmounts, rfl, rfl, rfl, ?_, ?_, ?_⟩
        · simp [List.map_append, hk.1, hs.1]
        · simp [List.length_append, hk.2.2.1, hs.2.2.1]
        · simp [List.length_append, hk.2.1, hs.2.1]

/-- C4: for every call of `send` that does not fail, under a mint that
returns one signature per requested output in request order with the
requested amounts, the sum of the returned send proofs equals the
(possibly preference-overridden) amount, and the send and change sums
together equal the input sum. -/
theorem send_sum_invariant (w : Wallet) (mb : MintBehavior) (amount : Nat)
    (proofs : List Proof) (preference : Option (List AmountPreference))
    (counter : Option Nat) (rng : Nat → RngDraw) (pos : Nat) (tr : List MintReq)
    (w' : Wallet) (res : SendResponse)
    (hmint : ∀ url payload sigs, mb.splitResp url payload = .ok sigs →
        sigs.map BlindSignature.amount =
          payload.outputs.map SerializedBlindedMessage.amount)
    (hrun : send w mb amount proofs preference counter rng pos = (tr, .ok (w', res))) :
    sumProofs res.send = overrideAmount amount preference ∧
    sumProofs res.send + sumProofs res.returnChange = sumProofs proofs := by
  simp only [send] at hrun
  have hgs := greedyGo_spec (overrideAmount amount preference) proofs 0
  by_cases h1 : (greedyGo (overrideAmount amount preference) proofs 0).2.2 <
      overrideAmount amount preference
  · rw [if_pos h1] at hrun
    simp only [Prod.mk.injEq] at hrun
    exact Except.noConfusion hrun.2
  · rw [if_neg h1] at hrun
    by_cases h2 : overrideAmount amount preference <
        (greedyGo (overrideAmount amount preference) proofs 0).2.2 ∨
        preference.isSome = true
    · rw [if_pos h2] at hrun
      rcases hcsp : createSplitPayload (initKeys w mb).2.1
          (overrideAmount amount preference)
          (greedyGo (overrideAmount amount preference) proofs 0).1
          (initKeys w mb).2.2 preference counter rng pos with e | pr
      · simp only [hcsp] at hrun
        simp only [Prod.mk.injEq] at hrun
        exact Except.noConfusion hrun.2
      · obtain ⟨⟨payload, bmData⟩, posF⟩ := pr
        simp only [hcsp] at hrun
        rcases hms : mb.splitResp mb.mintUrl payload with e | sigs
        · simp only [hms] at hrun
          simp only [Prod.mk.injEq] at hrun
          exact Except.noConfusion hrun.2
        · simp only [hms] at hrun
          rcases hcp : constructProofs sigs bmData.rs bmData.secrets
              (initKeys w mb).2.2 with e | newProofs
          · simp only [hcp] at hrun
            simp only [Prod.mk.injEq] at hrun
            exact Except.noConfusion hrun.2
          · simp only [hcp] at hrun
            simp only [Prod.mk.injEq, Except.ok.injEq] at hrun
            obtain ⟨htr, hw2, hres⟩ := hrun
            obtain ⟨sendAmounts, hsa, hinp, hout, hmap, hrs, hsec⟩ :=
              createSplitPayload_parts _ _ _ _ _ _ _ _ _ _ _ hcsp
            have hsigs := hmint mb.mintUrl payload sigs hms
            have hamts : newProofs.map Proof.amount =
                binDecomp (sumProofs (greedyGo (overrideAmount amount preference) proofs 0).1 -
                  overrideAmount amount preference) ++ sendAmounts := by
              rw [constructProofsGo_amounts _ _ _ _ _ hcp, hsigs, hout, hmap]
            have havail : (greedyGo (overrideAmount amount preference) proofs 0).2.2 =
                sumProofs (greedyGo (overrideAmount amount preference) proofs 0).1 := by
              omega
            have hAle : overrideAmount amount preference ≤
                sumProofs (greedyGo (overrideAmount amount preference) proofs 0).1 := by
              omega
            have happ := List.take_append_drop
              (binDecomp (sumProofs (greedyGo (overrideAmount amount preference) proofs 0).1 -
                overrideAmount amount preference)).length newProofs
            have hmapA : (newProofs.take
                (binDecomp (sumProofs (greedyGo (overrideAmount amount preference) proofs 0).1 -
                  overrideAmount amount preference)).length).map Proof.amount =
                binDecomp (sumProofs (greedyGo (overrideAmount amount preference) proofs 0).1 -
                  overrideAmount amount preference) := by
              rw [List.map_take, hamts, List.take_left]
            have hmapB : (newProofs.drop
                (binDecomp (sumProofs (greedyGo (overrideAmount amount preference) proofs 0).1 -
                  overrideAmount amount preference)).length).map Proof.amount =
                sendAmounts := by
              rw [List.map_drop, hamts, List.drop_left]
            have hpos : ∀ p ∈ newProofs.take
                (binDecomp (sumProofs (greedyGo (overrideAmount amount preference) proofs 0).1 -
                  overrideAmount amount preference)).length, 0 < p.amount := by
              intro p hp
              have hmem : p.amount ∈ binDecomp
                  (sumProofs (greedyGo (overrideAmount amount preference) proofs 0).1 -
                    overrideAmount amount preference) := by
                rw [← hmapA]
                exact List.mem_map_of_mem _ hp
              exact binDecomp_pos _ _ hmem
            have hksum : sumProofs (newProofs.take
                (binDecomp (sumProofs (greedyGo (overrideAmount amount preference) proofs 0).1 -
                  overrideAmount amount preference)).length) =
                sumProofs (greedyGo (overrideAmount amount preference) proofs 0).1 -
                  overrideAmount amount preference := by
              rw [sumProofs, hmapA, binDecomp_sum]
            have hssum : sumProofs (newProofs.drop
                (binDecomp (sumProofs (greedyGo (overrideAmount amount preference) proofs 0).1 -
                  overrideAmount amount preference)).length) = sendAmounts.sum := by
              rw [sumProofs, hmapB]
            have hsplit := splitByKeep_exact
              (sumProofs (greedyGo (overrideAmount amount preference) proofs 0).1 -
                overrideAmount amount preference)
              (newProofs.take
                (binDecomp (sumProofs (greedyGo (overrideAmount amount preference) proofs 0).1 -
                  overrideAmount amount preference)).length)
              (newProofs.drop
                (binDecomp (sumProofs (greedyGo (overrideAmount amount preference) proofs 0).1 -
                  overrideAmount amount preference)).length)
              0 hpos (by omega)
            rw [happ] at hsplit
            have hsasum := splitAmount_sum _ _ _ hsa
            cases res with
            | mk rc sd =>
              simp only [SendResponse.mk.injEq] at hres
              obtain ⟨hrc, hsd⟩ := hres
              subst hrc
              subst hsd
              dsimp only [splitReceive]
              rw [havail, hsplit]
              dsimp only
              simp only [sumProofs_append]
              constructor
              · omega
              · omega
    · rw [if_neg h2] at hrun
      simp only [Prod.mk.injEq, Except.ok.injEq] at hrun
      obtain ⟨htr, hw2, hres⟩ := hrun
      have heq : overrideAmount amount preference =
          (greedyGo (overrideAmount amount preference) proofs 0).2.2 := by
        push_neg at h2
        omega
      cases res with
      | mk rc sd =>
        simp only [SendResponse.mk.injEq] at hres
        obtain ⟨hrc, hsd⟩ := hres
        subst hrc
        subst hsd
        dsimp only
        constructor
        · omega
        · omega

/-- C1: evaluation of `createSplitPayload` at the failing input: a wallet
with a seed, counter zero, one selected proof of amount two and send amount
one. The keep group consumes derivation index zero, and because the counter
advance is guarded by the JavaScript truthiness test `this._seed && counter`
(false at zero), the send group also starts at index zero: the two planned
secrets are identical, so the two groups reuse the same derivation index
instead of the send group starting at index one. -/
theorem counterZero_index_reuse :
    (createSplitPayload wSeed 1 [pIn2] ks1 none (some 0) rng0 0).map
        (fun pr => pr.1.2.secrets) =
      .ok [⟨.derived [7] "ks1" 0⟩, ⟨.derived [7] "ks1" 0⟩] := by decide

/-- A contrast to `counterZero_index_reuse`: with any nonzero counter the
send group is correctly shifted past the keep group, here counter one gives
keep index one and send index two. -/
theorem counterOne_index_contiguous :
    (createSplitPayload wSeed 1 [pIn2] ks1 none (some 1) rng0 0).map
        (fun pr => pr.1.2.secrets) =
      .ok [⟨.derived [7] "ks1" 1⟩, ⟨.derived [7] "ks1" 2⟩] := by decide

/-- C2: evaluation of `receive` on a one-entry token under an honest mint:
the result record nests a further `Token` record inside its `token` field
(the entry list sits at `result.token.token`), instead of the `token` field
being the entry list itself. -/
theorem receive_nested_token_shape :
    (receive wNoSeed mbHonest tokRecv none none rng0 0).2.2.1 =
      ⟨⟨[⟨"good", [⟨"ks1", 1, .hexOf (.random [0]),
          .unblinded "sig" (.sampled 0) "pk1"⟩]⟩]⟩, none⟩ := by decide

/-- C3 counterexample: when the greedy selection matches the amount exactly
and no preference is given, `send` issues no mint request at all (the trace
is empty) and returns the original input proof of the caller itself, not a fresh
proof from a swap. -/
theorem send_exact_returns_inputs :
    send wNoSeed mbHonest 1 [pIn1] none none rng0 0 =
      ([], .ok (wNoSeed, ⟨[], [pIn1]⟩)) := by decide

/-- C3 amended: whenever the greedy selection sums exactly to the requested
amount and no preference is given, `send` performs no swap round trip: it
returns the selected input proofs unchanged as the send proofs and the
unselected proofs as the change, and the only request it can have issued is
the lazy key fetch, never a split request. -/
theorem send_exact_no_swap (w : Wallet) (mb : MintBehavior) (amount : Nat)
    (proofs : List Proof) (counter : Option Nat) (rng : Nat → RngDraw) (pos : Nat)
    (hexact : (greedyGo amount proofs 0).2.2 = amount) :
    send w mb amount proofs none counter rng pos =
      ((initKeys w mb).1,
        .ok ((initKeys w mb).2.1,
          ⟨(greedyGo amount proofs 0).2.1, (greedyGo amount proofs 0).1⟩)) ∧
    (initKeys w mb).1.all (fun req => !req.isSplitReq) = true := by
  constructor
  · simp only [send, overrideAmount]
    rw [if_neg (by omega), if_neg (by simp [hexact])]
  · unfold initKeys
    by_cases h : w.keysetId = "" || w.keys.keys.isEmpty <;>
      simp [h, MintReq.isSplitReq]

/-- Witness for `send_exact_no_swap` at a concrete exact-match input. -/
theorem send_exact_no_swap_witness :
    send wNoSeed mbHonest 1 [pIn1] none none rng0 0 =
      ((initKeys wNoSeed mbHonest).1,
        .ok ((initKeys wNoSeed mbHonest).2.1,
          ⟨(greedyGo 1 [pIn1] 0).2.1, (greedyGo 1 [pIn1] 0).1⟩)) ∧
    (initKeys wNoSeed mbHonest).1.all (fun req => !req.isSplitReq) = true :=
  send_exact_no_swap wNoSeed mbHonest 1 [pIn1] none rng0 0 (by decide)

/-- C5 counterexample: `receive` with a counter supplied on a seedless
wallet does not fail with the no-seed error: the call completes normally,
contacts the mint not at all, and routes the entry into the
tokens-with-errors field. -/
theorem receive_counter_no_seed_no_throw :
    receive wNoSeed mbHonest tokRecv none (some 1) rng0 0 =
      ([], wNoSeed, ⟨⟨[]⟩, some ⟨[⟨"good", [pIn1]⟩]⟩⟩, 0) := by decide

theorem blankOutputCount_eq (feeReserve : Nat) :
    blankOutputCount feeReserve =
      if feeReserve = 0 then 0 else max 1 (Nat.clog 2 feeReserve) := by
  unfold blankOutputCount
  rw [ceilLog2_eq_clog]
  by_cases h0 : feeReserve = 0
  · simp [h0]
  · simp only [h0, if_false]
    by_cases h1 : Nat.clog 2 feeReserve = 0
    · simp [h1]
    · simp only [h1, if_false]
      omega

/-- C6: `createBlankOutputs` with no counter always succeeds and produces
exactly `max 1 (ceil (log2 feeReserve))` outputs for a positive fee reserve
and zero outputs for fee reserve zero, every output having amount one. The
ceiling base-two logarithm of the JavaScript `Math.ceil(Math.log2(...))` is
modelled exactly by `Nat.clog 2`. -/
theorem createBlankOutputs_count (w : Wallet) (feeReserve : Nat)
    (keysetId : String) (rng : Nat → RngDraw) (pos : Nat) :
    ∃ d posF, createBlankOutputs w feeReserve keysetId none rng pos = .ok (d, posF) ∧
      d.blindedMessages.length =
        (if feeReserve = 0 then 0 else max 1 (Nat.clog 2 feeReserve)) ∧
      d.blindedMessages.all (fun bm => bm.amount == 1) = true := by
  unfold createBlankOutputs createBlindedMessages
  simp only [Option.isSome_none, Bool.false_and, Bool.false_eq_true, if_false]
  refine ⟨_, _, rfl, ?_, ?_⟩
  · have hm := cbmLoop_maps w keysetId none rng
      (List.replicate (blankOutputCount feeReserve) 1) 0 pos
    rw [← List.length_map _ SerializedBlindedMessage.amount, hm.1,
      List.length_replicate, blankOutputCount_eq]
  · have hm := cbmLoop_maps w keysetId none rng
      (List.replicate (blankOutputCount feeReserve) 1) 0 pos
    rw [List.all_eq_true]
    intro bm hbm
    have hmem := List.mem_map_of_mem SerializedBlindedMessage.amount hbm
    rw [hm.1] at hmem
    have h1 := List.eq_of_mem_replicate hmem
    simp [h1]

/-- C8: with a seed and a counter, two invocations of
`createBlindedMessages` on the same amounts and keyset id produce the same
blinded messages, secrets and blinding factors whatever the random streams
and stream positions are, and neither invocation consumes randomness (the
returned stream position equals the supplied one). -/
theorem createBlindedMessages_deterministic (w : Wallet) (s : List Nat)
    (amounts : List Nat) (keysetId : String) (c : Nat)
    (rng1 rng2 : Nat → RngDraw) (pos1 pos2 : Nat) (hw : w.seed = some s) :
    ∃ d, createBlindedMessages w amounts keysetId (some c) rng1 pos1 = .ok (d, pos1) ∧
      createBlindedMessages w amounts keysetId (some c) rng2 pos2 = .ok (d, pos2) :=
  ⟨_, createBlindedMessages_det w s amounts keysetId c rng1 pos1 hw,
    createBlindedMessages_det w s amounts keysetId c rng2 pos2 hw⟩

/-- Witness for `createBlindedMessages_deterministic` on a seeded wallet,
two different streams and two different positions. -/
theorem createBlindedMessages_deterministic_witness :
    ∃ d, createBlindedMessages wSeed [1, 2] "ks1" (some 3) rng0 0 = .ok (d, 0) ∧
      createBlindedMessages wSeed [1, 2] "ks1" (some 3) rngB 5 = .ok (d, 5) :=
  createBlindedMessages_deterministic wSeed [7] [1, 2] "ks1" 3 rng0 rngB 0 5 rfl

theorem mbHonest_amounts : ∀ (url : String) (payload : SplitPayload)
    (sigs : List BlindSignature), mbHonest.splitResp url payload = .ok sigs →
    sigs.map BlindSignature.amount =
      payload.outputs.map SerializedBlindedMessage.amount := by
  intro url payload sigs h
  unfold mbHonest at h
  by_cases hu : url = "bad"
  · simp only [hu, if_pos rfl] at h
    exact Except.noConfusion h
  · simp only [hu, if_false] at h
    simp only [Except.ok.injEq] at h
    rw [← h, List.map_map]
    rfl

/-- Witness for `send_sum_invariant`: the concrete overpaying call sending
one from a proof of two under the honest sample mint, checked against the
evaluated output. -/
theorem send_sum_invariant_witness :
    sumProofs [⟨"ks1", 1, .hexOf (.random [1]), .unblinded "sig" (.sampled 1) "pk1"⟩] =
      overrideAmount 1 none ∧
    sumProofs [⟨"ks1", 1, .hexOf (.random [1]), .unblinded "sig" (.sampled 1) "pk1"⟩] +
      sumProofs [⟨"ks1", 1, .hexOf (.random [0]), .unblinded "sig" (.sampled 0) "pk1"⟩] =
      sumProofs [pIn2] :=
  send_sum_invariant wNoSeed mbHonest 1 [pIn2] none none rng0 0
    [.splitReq ⟨[pIn2],
      [⟨1, ⟨⟨.random [0]⟩, .sampled 0⟩, "ks1"⟩,
       ⟨1, ⟨⟨.random [1]⟩, .sampled 1⟩, "ks1"⟩]⟩]
    wNoSeed
    ⟨[⟨"ks1", 1, .hexOf (.random [0]), .unblinded "sig" (.sampled 0) "pk1"⟩],
     [⟨"ks1", 1, .hexOf (.random [1]), .unblinded "sig" (.sampled 1) "pk1"⟩]⟩
    mbHonest_amounts (by decide)

/-- C7: whenever `meltTokens` succeeds against a mint response `resp`, the
returned paid flag is `resp.paid` defaulted to false (so false whenever the
mint omitted it), the returned change is empty whenever the mint omitted
the change field, and when change is present it is exactly the proofs
unblinded from the returned signatures against the retained blank-output
secrets and blinding factors. -/
theorem meltTokens_optional_fields (w : Wallet) (mb : MintBehavior)
    (meltQuote : MeltQuote) (proofsToSend : List Proof)
    (keysetId : Option String) (counter : Option Nat) (rng : Nat → RngDraw)
    (pos : Nat) (resp : MeltResp) (tr : List MintReq) (w' : Wallet)
    (res : MeltTokensResponse)
    (hresp : mb.meltResp = fun _ => .ok resp)
    (hrun : meltTokens w mb meltQuote proofsToSend keysetId counter rng pos =
      (tr, .ok (w', res))) :
    res.isPaid = resp.paid.getD false ∧
    res.preimage = resp.payment_preimage ∧
    (resp.change = none → res.change = []) ∧
    (∀ sigs bm posF, resp.change = some sigs →
      createBlankOutputs w meltQuote.fee_reserve (keysetId.getD w.keysetId)
          counter rng pos = .ok (bm, posF) →
      constructProofs sigs bm.rs bm.secrets (getKeysFor w mb sigs).2.2 =
        .ok res.change) := by
  unfold meltTokens at hrun
  rcases hbo : createBlankOutputs w meltQuote.fee_reserve (keysetId.getD w.keysetId)
      counter rng pos with e | bp
  · simp only [hbo] at hrun
    simp only [Prod.mk.injEq] at hrun
    exact Except.noConfusion hrun.2
  · obtain ⟨bm0, pos0⟩ := bp
    simp only [hbo, hresp] at hrun
    rcases hch : resp.change with _ | sigs
    · simp only [hch] at hrun
      simp only [Prod.mk.injEq, Except.ok.injEq] at hrun
      obtain ⟨htr, hw2, hres⟩ := hrun
      subst hres
      refine ⟨rfl, rfl, fun _ => rfl, ?_⟩
      intro sigs bm posF hsigs hbo2
      exact Option.noConfusion hsigs
    · simp only [hch] at hrun
      rcases hcp : constructProofs sigs bm0.rs bm0.secrets (getKeysFor w mb sigs).2.2
          with e | change
      · simp only [hcp] at hrun
        simp only [Prod.mk.injEq] at hrun
        exact Except.noConfusion hrun.2
      · simp only [hcp] at hrun
        simp only [Prod.mk.injEq, Except.ok.injEq] at hrun
        obtain ⟨htr, hw2, hres⟩ := hrun
        subst hres
        refine ⟨rfl, rfl, ?_, ?_⟩
        · intro hnone
          exact Option.noConfusion hnone
        · intro sigs2 bm posF hsigs hbo2
          injection hsigs with hs2
          subst hs2
          simp only [Except.ok.injEq, Prod.mk.injEq] at hbo2
          rw [← hbo2.1]
          exact hcp

/-- Sample mint behavior for the melt witness: the melt endpoint always
answers paid with one change signature of amount two. -/
def mbMelt : MintBehavior :=
  ⟨"mint", fun _ => ks1, fun _ _ => .error "unused",
   fun _ => .ok ⟨some true, some "pre", some [⟨"ks1", 2, "csig"⟩]⟩,
   fun _ => .error "unused"⟩

/-- Witness for `meltTokens_optional_fields` at the concrete melt of a fee
reserve of two with one returned change signature. -/
theorem meltTokens_optional_fields_witness :
    (⟨true, some "pre",
      [⟨"ks1", 2, .hexOf (.random [0]), .unblinded "csig" (.sampled 0) "pk2"⟩]⟩ :
        MeltTokensResponse).isPaid = (some true).getD false ∧
    (⟨true, some "pre",
      [⟨"ks1", 2, .hexOf (.random [0]), .unblinded "csig" (.sampled 0) "pk2"⟩]⟩ :
        MeltTokensResponse).preimage = some "pre" ∧
    ((some [(⟨"ks1", 2, "csig"⟩ : BlindSignature)] = none) →
      (⟨true, some "pre",
        [⟨"ks1", 2, .hexOf (.random [0]), .unblinded "csig" (.sampled 0) "pk2"⟩]⟩ :
          MeltTokensResponse).change = []) ∧
    (∀ sigs bm posF,
      (some [(⟨"ks1", 2, "csig"⟩ : BlindSignature)] : Option (List BlindSignature)) =
        some sigs →
      createBlankOutputs wNoSeed (MeltQuote.mk "q" 10 2).fee_reserve
          ((none : Option String).getD wNoSeed.keysetId) none rng0 0 = .ok (bm, posF) →
      constructProofs sigs bm.rs bm.secrets (getKeysFor wNoSeed mbMelt sigs).2.2 =
        .ok (⟨true, some "pre",
          [⟨"ks1", 2, .hexOf (.random [0]), .unblinded "csig" (.sampled 0) "pk2"⟩]⟩ :
            MeltTokensResponse).change) :=
  meltTokens_optional_fields wNoSeed mbMelt ⟨"q", 10, 2⟩ [pIn2] none none rng0 0
    ⟨some true, some "pre", some [⟨"ks1", 2, "csig"⟩]⟩
    [.meltReq ⟨"q", [pIn2], [⟨1, ⟨⟨.random [0]⟩, .sampled 0⟩, "ks1"⟩]⟩]
    wNoSeed
    ⟨true, some "pre",
      [⟨"ks1", 2, .hexOf (.random [0]), .unblinded "csig" (.sampled 0) "pk2"⟩]⟩
    rfl (by decide)

/-- C10: `meltTokens` with the keyset id argument omitted and no counter
issues its melt request first (no key fetch or initialization precedes it),
and every blank output inside that melt payload carries the cached wallet
keyset id; in particular, on a wallet whose cached keyset id is the empty
string, the blank outputs carry the empty-string keyset id. -/
theorem meltTokens_uses_cached_keyset (w : Wallet) (mb : MintBehavior)
    (meltQuote : MeltQuote) (proofsToSend : List Proof) (rng : Nat → RngDraw)
    (pos : Nat) :
    ∃ payload rest,
      (meltTokens w mb meltQuote proofsToSend none none rng pos).1 =
        .meltReq payload :: rest ∧
      payload.outputs.all (fun o => o.id == w.keysetId) = true := by
  have hall : ∀ amts i, (cbmLoop w w.keysetId none rng amts i pos).1.all
      (fun o => o.id == w.keysetId) = true := by
    intro amts i
    rw [List.all_eq_true]
    intro o ho
    have hmem := List.mem_map_of_mem SerializedBlindedMessage.id ho
    rw [(cbmLoop_maps w w.keysetId none rng amts i pos).2.1] at hmem
    simp [List.eq_of_mem_replicate hmem]
  unfold meltTokens createBlankOutputs createBlindedMessages
  simp only [Option.getD_none, Option.isSome_none, Bool.false_and,
    Bool.false_eq_true, if_false]
  rcases hm : mb.meltResp ⟨meltQuote.quote, proofsToSend,
      (cbmLoop w w.keysetId none rng
        (List.replicate (blankOutputCount meltQuote.fee_reserve) 1) 0 pos).1⟩
      with e | resp
  · exact ⟨_, _, rfl, hall _ _⟩
  · obtain ⟨paid0, pre0, change0⟩ := resp
    rcases change0 with _ | sigs
    · exact ⟨_, _, rfl, hall _ _⟩
    · dsimp only
      rcases hcp : constructProofs sigs
          (cbmLoop w w.keysetId none rng
            (List.replicate (blankOutputCount meltQuote.fee_reserve) 1) 0 pos).2.2.1
          (cbmLoop w w.keysetId none rng
            (List.replicate (blankOutputCount meltQuote.fee_reserve) 1) 0 pos).2.1
          (getKeysFor w mb sigs).2.2 with e | change
      · exact ⟨_, _, rfl, hall _ _⟩
      · exact ⟨_, _, rfl, hall _ _⟩

theorem initKeys_seed (w : Wallet) (mb : MintBehavior) :
    ((initKeys w mb).2.1).seed = w.seed := by
  unfold initKeys
  by_cases h : w.keysetId = "" || w.keys.keys.isEmpty <;> simp [h]

theorem initKeys_noSplit (w : Wallet) (mb : MintBehavior) :
    (initKeys w mb).1.all (fun req => !req.isSplitReq) = true := by
  unfold initKeys
  by_cases h : w.keysetId = "" || w.keys.keys.isEmpty <;>
    simp [h, MintReq.isSplitReq]

theorem createSplitPayload_noSeed (w : Wallet) (amount : Nat)
    (proofsToSend : List Proof) (keyset : MintKeys)
    (preference : Option (List AmountPreference)) (c : Nat)
    (rng : Nat → RngDraw) (pos : Nat) (hseed : w.seed = none) :
    createSplitPayload w amount proofsToSend keyset preference (some c) rng pos =
      .error noSeedErrorMsg := by
  unfold createSplitPayload createRandomBlindedMessages createBlindedMessages
  simp [splitAmount_none, hseed]

theorem receiveTokenEntry_noSeed (w : Wallet) (mb : MintBehavior)
    (tokenEntry : TokenEntry) (preference : Option (List AmountPreference))
    (c : Nat) (rng : Nat → RngDraw) (pos : Nat) (hseed : w.seed = none) :
    receiveTokenEntry w mb tokenEntry preference (some c) rng pos =
      ((initKeys w mb).1, (initKeys w mb).2.1, ⟨[], some tokenEntry.proofs⟩, pos) := by
  unfold receiveTokenEntry
  dsimp only
  rw [createSplitPayload_noSeed ((initKeys w mb).2.1) _ _ _ _ _ _ _
    (by rw [initKeys_seed]; exact hseed)]

theorem receiveGo_noSeed (mb : MintBehavior)
    (preference : Option (List AmountPreference)) (c : Nat)
    (rng : Nat → RngDraw) :
    ∀ (entries : List TokenEntry) (w : Wallet) (pos : Nat), w.seed = none →
      (receiveGo mb preference (some c) rng entries w pos).2.2.1 = [] ∧
      (receiveGo mb preference (some c) rng entries w pos).2.2.2.1 =
        entries.filter (fun e => !e.proofs.isEmpty) ∧
      (receiveGo mb preference (some c) rng entries w pos).1.all
        (fun req => !req.isSplitReq) = true := by
  intro entries
  induction entries with
  | nil => intro w pos _; simp [receiveGo]
  | cons e rest ih =>
    intro w pos hseed
    by_cases he : e.proofs.isEmpty = true
    · have hih := ih w pos hseed
      simp only [receiveGo, if_pos he]
      simp [List.filter_cons, he, hih.1, hih.2.1, hih.2.2]
    · have hstep := receiveTokenEntry_noSeed w mb e preference c rng pos hseed
      have hih := ih ((initKeys w mb).2.1) pos (by rw [initKeys_seed]; exact hseed)
      simp only [receiveGo, if_neg he, hstep]
      refine ⟨hih.1, ?_, ?_⟩
      · simp [List.filter_cons, he, hih.2.1]
      · simp [List.all_append, initKeys_noSplit, hih.2.2]

/-- C5 amended: on a wallet without a seed and with a counter supplied,
`send` fails with the no-seed error whenever it reaches output planning
(enough funds selected and a swap required), issuing no split request;
`meltTokens` fails with the no-seed error before issuing any request;
`restore` fails with its mnemonic-required error before issuing any
request; `receive` does not fail: it returns an empty entry list, routes
every entry with proofs into the tokens-with-errors field, and issues no
split request. Conversely, when no counter is supplied or a seed is
present, `createBlindedMessages` (the function that raises the no-seed
error) always succeeds. -/
theorem noSeed_counter_behavior (w : Wallet) (mb : MintBehavior)
    (hseed : w.seed = none) :
    (∀ (amount : Nat) (proofs : List Proof)
        (pref : Option (List AmountPreference)) (c : Nat)
        (rng : Nat → RngDraw) (pos : Nat),
      ¬(greedyGo (overrideAmount amount pref) proofs 0).2.2 <
          overrideAmount amount pref →
      (overrideAmount amount pref <
          (greedyGo (overrideAmount amount pref) proofs 0).2.2 ∨
        pref.isSome = true) →
      send w mb amount proofs pref (some c) rng pos =
        ((initKeys w mb).1, .error noSeedErrorMsg) ∧
      (initKeys w mb).1.all (fun req => !req.isSplitReq) = true) ∧
    (∀ (meltQuote : MeltQuote) (proofsToSend : List Proof)
        (keysetId : Option String) (c : Nat) (rng : Nat → RngDraw) (pos : Nat),
      meltTokens w mb meltQuote proofsToSend keysetId (some c) rng pos =
        ([], .error noSeedErrorMsg)) ∧
    (∀ (start count : Nat) (keysetId : String) (rng : Nat → RngDraw) (pos : Nat),
      restore w mb start count keysetId rng pos =
        ([], .error restoreSeedErrorMsg)) ∧
    (∀ (token : Token) (pref : Option (List AmountPreference)) (c : Nat)
        (rng : Nat → RngDraw) (pos : Nat),
      (receive w mb token pref (some c) rng pos).2.2.1.token.token = [] ∧
      errEntries (receive w mb token pref (some c) rng pos).2.2.1 =
        token.token.filter (fun e => !e.proofs.isEmpty) ∧
      (receive w mb token pref (some c) rng pos).1.all
        (fun req => !req.isSplitReq) = true) ∧
    (∀ (w2 : Wallet) (amounts : List Nat) (keysetId : String)
        (counter : Option Nat) (rng : Nat → RngDraw) (pos : Nat),
      counter = none ∨ w2.seed.isSome = true →
      ∃ d posF,
        createBlindedMessages w2 amounts keysetId counter rng pos = .ok (d, posF)) := by
  refine ⟨?_, ?_, ?_, ?_, ?_⟩
  · intro amount proofs pref c rng pos h1 h2
    constructor
    · simp only [send]
      rw [if_neg h1, if_pos h2]
      rw [createSplitPayload_noSeed ((initKeys w mb).2.1) _ _ _ _ _ _ _
        (by rw [initKeys_seed]; exact hseed)]
    · exact initKeys_noSplit w mb
  · intro meltQuote proofsToSend keysetId c rng pos
    unfold meltTokens createBlankOutputs createBlindedMessages
    simp [hseed]
  · intro start count keysetId rng pos
    simp [restore, hseed]
  · intro token pref c rng pos
    have hgo := receiveGo_noSeed mb pref c rng token.token w pos hseed
    unfold receive
    dsimp only
    refine ⟨hgo.1, ?_, hgo.2.2⟩
    unfold errEntries
    by_cases herrs :
        (receiveGo mb pref (some c) rng token.token w pos).2.2.2.1.isEmpty = true
    · have hnil : (receiveGo mb pref (some c) rng token.token w pos).2.2.2.1 = [] := by
        simpa using herrs
      simp only [if_pos herrs]
      rw [← hgo.2.1, hnil]
    · simp only [if_neg herrs]
      exact hgo.2.1
  · intro w2 amounts keysetId counter rng pos h
    have hcond : (counter.isSome && w2.seed.isNone) = false := by
      rcases h with rfl | hs
      · simp
      · rcases hws : w2.seed with _ | s
        · rw [hws] at hs; simp at hs
        · simp [hws]
    unfold createBlindedMessages
    rw [if_neg (by simp [hcond])]
    exact ⟨_, _, rfl⟩

/-- Witness for `noSeed_counter_behavior`: the concrete seedless wallet with
counter one, instantiating the send clause at an overpaying call, the melt
clause, and the seeded success clause. -/
theorem noSeed_counter_behavior_witness :
    (send wNoSeed mbHonest 1 [pIn2] none (some 1) rng0 0 =
      ((initKeys wNoSeed mbHonest).1, .error noSeedErrorMsg) ∧
      (initKeys wNoSeed mbHonest).1.all (fun req => !req.isSplitReq) = true) ∧
    meltTokens wNoSeed mbHonest ⟨"q", 10, 2⟩ [pIn2] none (some 1) rng0 0 =
      ([], .error noSeedErrorMsg) ∧
    restore wNoSeed mbHonest 0 3 "ks1" rng0 0 = ([], .error restoreSeedErrorMsg) ∧
    (∃ d posF, createBlindedMessages wSeed [1] "ks1" (some 0) rng0 0 = .ok (d, posF)) :=
  ⟨(noSeed_counter_behavior wNoSeed mbHonest rfl).1 1 [pIn2] none 1 rng0 0
      (by decide) (by decide),
   (noSeed_counter_behavior wNoSeed mbHonest rfl).2.1 ⟨"q", 10, 2⟩ [pIn2] none 1 rng0 0,
   (noSeed_counter_behavior wNoSeed mbHonest rfl).2.2.1 0 3 "ks1" rng0 0,
   (noSeed_counter_behavior wNoSeed mbHonest rfl).2.2.2.2 wSeed [1] "ks1" (some 0)
      rng0 0 (Or.inr rfl)⟩

theorem initKeys_cached (w : Wallet) (mb : MintBehavior) (h1 : w.keysetId ≠ "")
    (h2 : w.keys.keys ≠ []) : initKeys w mb = ([], w, w.keys) := by
  unfold initKeys
  rcases hk : w.keys.keys with _ | ⟨p, rest⟩
  · exact absurd hk h2
  · rw [if_neg (by simp [h1, hk])]

theorem advanceCounter_seeded (w : Wallet) (s : List Nat) (c k : Nat)
    (hs : w.seed = some s) : ∃ c2, advanceCounter w (some c) k = some c2 := by
  unfold advanceCounter
  rw [hs]
  by_cases hc : c ≠ 0 <;> simp [hc]

theorem createSplitPayload_seeded (w : Wallet) (s : List Nat) (amount : Nat)
    (proofsToSend : List Proof) (keyset : MintKeys)
    (preference : Option (List AmountPreference)) (c : Nat) (rng : Nat → RngDraw)
    (pos : Nat) (hs : w.seed = some s) :
    (∃ e, createSplitPayload w amount proofsToSend keyset preference (some c)
        rng pos = .error e) ∨
    (∃ pr, createSplitPayload w amount proofsToSend keyset preference (some c)
        rng pos = .ok (pr, pos)) := by
  unfold createSplitPayload createRandomBlindedMessages
  dsimp only
  simp only [splitAmount_none]
  rw [createBlindedMessages_det w s _ keyset.id c rng pos hs]
  dsimp only
  obtain ⟨c2, hc2⟩ := advanceCounter_seeded w s c
    (detData s keyset.id c (binDecomp (sumProofs proofsToSend - amount))).2.1.length hs
  rw [hc2]
  rcases hsa : splitAmount amount preference with e | sendAmounts
  · exact Or.inl ⟨e, rfl⟩
  · dsimp only
    rw [createBlindedMessages_det w s sendAmounts keyset.id c2 rng pos hs]
    exact Or.inr ⟨_, rfl⟩

theorem receiveTokenEntry_det_state (w : Wallet) (mb : MintBehavior)
    (e : TokenEntry) (pref : Option (List AmountPreference)) (s : List Nat)
    (c : Nat) (rng : Nat → RngDraw) (pos : Nat)
    (hs : w.seed = some s) (hkid : w.keysetId ≠ "") (hkeys : w.keys.keys ≠ []) :
    (receiveTokenEntry w mb e pref (some c) rng pos).2.1 = w ∧
    (receiveTokenEntry w mb e pref (some c) rng pos).2.2.2 = pos := by
  unfold receiveTokenEntry
  rw [initKeys_cached w mb hkid hkeys]
  dsimp only
  rcases createSplitPayload_seeded w s (sumProofs e.proofs) e.proofs w.keys
      (some (resolvePreference pref (sumProofs e.proofs))) c rng pos hs with
    ⟨err, herr⟩ | ⟨pr, hok⟩
  · rw [herr]
    exact ⟨rfl, rfl⟩
  · obtain ⟨payload, bm⟩ := pr
    rw [hok]
    dsimp only
    rcases hsp : mb.splitResp e.mint payload with e' | sigs
    · exact ⟨rfl, rfl⟩
    · dsimp only
      rcases hcp : constructProofs sigs bm.rs bm.secrets w.keys with e' | newProofs
      · exact ⟨rfl, rfl⟩
      · exact ⟨rfl, rfl⟩

theorem receiveGo_det_state (mb : MintBehavior)
    (pref : Option (List AmountPreference)) (s : List Nat) (c : Nat)
    (rng : Nat → RngDraw) :
    ∀ (entries : List TokenEntry) (w : Wallet) (pos : Nat),
      w.seed = some s → w.keysetId ≠ "" → w.keys.keys ≠ [] →
      (receiveGo mb pref (some c) rng entries w pos).2.1 = w ∧
      (receiveGo mb pref (some c) rng entries w pos).2.2.2.2 = pos := by
  intro entries
  induction entries with
  | nil => intro w pos _ _ _; exact ⟨rfl, rfl⟩
  | cons e rest ih =>
    intro w pos hs hkid hkeys
    by_cases he : e.proofs.isEmpty = true
    · simp only [receiveGo, if_pos he]
      exact ih w pos hs hkid hkeys
    · have hst := receiveTokenEntry_det_state w mb e pref s c rng pos hs hkid hkeys
      simp only [receiveGo, if_neg he, hst.1, hst.2]
      have hih := ih w pos hs hkid hkeys
      rcases hpe : (receiveTokenEntry w mb e pref (some c) rng pos).2.2.1.proofsWithError
          with _ | pe <;> simpa using hih

theorem receiveGo_append (mb : MintBehavior)
    (pref : Option (List AmountPreference)) (s : List Nat) (c : Nat)
    (rng : Nat → RngDraw) :
    ∀ (xs ys : List TokenEntry) (w : Wallet) (pos : Nat),
      w.seed = some s → w.keysetId ≠ "" → w.keys.keys ≠ [] →
      receiveGo mb pref (some c) rng (xs ++ ys) w pos =
        ((receiveGo mb pref (some c) rng xs w pos).1 ++
            (receiveGo mb pref (some c) rng ys w pos).1,
         (receiveGo mb pref (some c) rng ys w pos).2.1,
         (receiveGo mb pref (some c) rng xs w pos).2.2.1 ++
            (receiveGo mb pref (some c) rng ys w pos).2.2.1,
         (receiveGo mb pref (some c) rng xs w pos).2.2.2.1 ++
            (receiveGo mb pref (some c) rng ys w pos).2.2.2.1,
         (receiveGo mb pref (some c) rng ys w pos).2.2.2.2) := by
  intro xs
  induction xs with
  | nil => intro ys w pos _ _ _; simp [receiveGo]
  | cons e rest ih =>
    intro ys w pos hs hkid hkeys
    by_cases he : e.proofs.isEmpty = true
    · simp only [List.cons_append, receiveGo, if_pos he]
      exact ih ys w pos hs hkid hkeys
    · have hst := receiveTokenEntry_det_state w mb e pref s c rng pos hs hkid hkeys
      simp only [List.cons_append, receiveGo, if_neg he, hst.1, hst.2, List.append_eq]
      rw [ih ys w pos hs hkid hkeys]
      rcases hpe : (receiveTokenEntry w mb e pref (some c) rng pos).2.2.1.proofsWithError
          with _ | pe <;> simp [List.append_assoc]

/-- C9: a failing entry of a received token (here: any entry whose
processing reports proofs with errors, for example because the mint rejects
its swap) is routed into the tokens-with-errors list while the remaining
entries are processed exactly as if the failing entry were absent; `receive`
itself returns normally rather than propagating the failure. Stated on a
wallet with cached keys and deterministic planning so that entries are
processed independently. -/
theorem receive_entry_failure_isolated (w : Wallet) (mb : MintBehavior)
    (s : List Nat) (pref : Option (List AmountPreference)) (c : Nat)
    (rng : Nat → RngDraw) (pos : Nat) (pre suf : List TokenEntry) (e : TokenEntry)
    (hs : w.seed = some s) (hkid : w.keysetId ≠ "") (hkeys : w.keys.keys ≠ [])
    (hne : e.proofs.isEmpty = false)
    (hfail : (receiveTokenEntry w mb e pref (some c) rng pos).2.2.1.proofsWithError ≠
      none) :
    (receive w mb ⟨pre ++ e :: suf⟩ pref (some c) rng pos).2.2.1.token.token =
      (receive w mb ⟨pre ++ suf⟩ pref (some c) rng pos).2.2.1.token.token ∧
    e ∈ errEntries (receive w mb ⟨pre ++ e :: suf⟩ pref (some c) rng pos).2.2.1 := by
  obtain ⟨pe, hpe⟩ : ∃ pe,
      (receiveTokenEntry w mb e pref (some c) rng pos).2.2.1.proofsWithError =
        some pe := by
    rcases hx : (receiveTokenEntry w mb e pref (some c) rng pos).2.2.1.proofsWithError
        with _ | pe
    · exact absurd hx hfail
    · exact ⟨pe, rfl⟩
  have hst := receiveTokenEntry_det_state w mb e pref s c rng pos hs hkid hkeys
  have hy : receiveGo mb pref (some c) rng (e :: suf) w pos =
      ((receiveTokenEntry w mb e pref (some c) rng pos).1 ++
          (receiveGo mb pref (some c) rng suf w pos).1,
       (receiveGo mb pref (some c) rng suf w pos).2.1,
       (receiveGo mb pref (some c) rng suf w pos).2.2.1,
       e :: (receiveGo mb pref (some c) rng suf w pos).2.2.2.1,
       (receiveGo mb pref (some c) rng suf w pos).2.2.2.2) := by
    have hne2 : ¬(e.proofs.isEmpty = true) := by
      rw [hne]
      exact Bool.false_ne_true
    simp only [receiveGo, if_neg hne2, hst.1, hst.2, hpe]
  have happ1 := receiveGo_append mb pref s c rng pre (e :: suf) w pos hs hkid hkeys
  have happ2 := receiveGo_append mb pref s c rng pre suf w pos hs hkid hkeys
  unfold receive
  dsimp only
  rw [happ1, happ2, hy]
  dsimp only
  constructor
  · rfl
  · have hemp : ((receiveGo mb pref (some c) rng pre w pos).2.2.2.1 ++
        e :: (receiveGo mb pref (some c) rng suf w pos).2.2.2.1).isEmpty = false := by
      rcases hl : (receiveGo mb pref (some c) rng pre w pos).2.2.2.1 with _ | ⟨q, qs⟩ <;>
        simp
    unfold errEntries
    simp only [hemp, Bool.false_eq_true, if_false]
    simp

/-- Witness for `receive_entry_failure_isolated`: a three-entry token whose
middle entry points at a failing mint url; the middle entry lands in the
errors list and the other two entries are processed as without it. -/
theorem receive_entry_failure_isolated_witness :
    (receive wSeed mbHonest
        ⟨[⟨"good", [pIn1]⟩, ⟨"bad", [pIn1]⟩, ⟨"good", [pIn2]⟩]⟩
        none (some 1) rng0 0).2.2.1.token.token =
      (receive wSeed mbHonest ⟨[⟨"good", [pIn1]⟩, ⟨"good", [pIn2]⟩]⟩
        none (some 1) rng0 0).2.2.1.token.token ∧
    (⟨"bad", [pIn1]⟩ : TokenEntry) ∈ errEntries
      (receive wSeed mbHonest
        ⟨[⟨"good", [pIn1]⟩, ⟨"bad", [pIn1]⟩, ⟨"good", [pIn2]⟩]⟩
        none (some 1) rng0 0).2.2.1 :=
  receive_entry_failure_isolated wSeed mbHonest [7] none 1 rng0 0
    [⟨"good", [pIn1]⟩] [⟨"good", [pIn2]⟩] ⟨"bad", [pIn1]⟩
    rfl (by decide) (by decide) (by decide) (by decide)

end Cashu
